import Mathlib

/-!
Shallow embedding of the ontology construction and validation engine of
`stjudecloud/ecc`:

* `crates/ontology/src/node/name.rs` — word-case classification and name
  parsing (`AsciiString`, `Case`, `validate_word_case`, `Name::from_str`);
* `crates/ontology/src/node.rs`, `node/builder.rs` — the `Node` record and
  its builder;
* `crates/ecc-cli/src/ontology/init.rs` — graph construction from an ordered
  list of nodes (duplicate detection, root detection, parent resolution);
* `crates/ecc-cli/src/ontology/init/directory.rs` — breadth-first path
  resolution over the built graph and kebab-case path rendering.

Rust strings are embedded as `List Char`; machine behaviour that panics
(`assert!`) is modelled as a distinct outcome constructor so that it can be
told apart from structured (`bail!`-style) error returns.
-/

deriving instance DecidableEq for Except

namespace ECC

/-- ASCII lowercase conversion of one character, as Rust's
`char::to_ascii_lowercase`: letters `A`-`Z` move down by 32, everything else
is unchanged. -/
def asciiToLower (c : Char) : Char :=
  if 'A' ≤ c ∧ c ≤ 'Z' then Char.ofNat (c.toNat + 32) else c

/-- ASCII uppercase conversion of one character, as Rust's
`char::to_ascii_uppercase`. -/
def asciiToUpper (c : Char) : Char :=
  if 'a' ≤ c ∧ c ≤ 'z' then Char.ofNat (c.toNat - 32) else c

/-- Rust's `char::is_whitespace`: the Unicode `White_Space` property. -/
def isRustWhitespace (c : Char) : Bool :=
  [0x9, 0xA, 0xB, 0xC, 0xD, 0x20, 0x85, 0xA0, 0x1680, 0x2028, 0x2029,
    0x202F, 0x205F, 0x3000].contains c.toNat
    || (0x2000 ≤ c.toNat && c.toNat ≤ 0x200A)

/-- Rust's `char::is_ascii` for every character of a string
(`str::is_ascii`): all code points are at most `0x7F`. -/
def isAsciiStr (s : List Char) : Bool :=
  s.all fun c => c.toNat ≤ 0x7F

/-- Accumulator-based splitting on whitespace. `cur` holds the characters of
the token currently being read, in reverse order. -/
def splitWhitespaceAux : List Char → List Char → List (List Char)
  | cur, [] => if cur.isEmpty then [] else [cur.reverse]
  | cur, c :: rest =>
    if isRustWhitespace c then
      if cur.isEmpty then splitWhitespaceAux [] rest
      else cur.reverse :: splitWhitespaceAux [] rest
    else splitWhitespaceAux (c :: cur) rest

/-- Rust's `str::split_whitespace`: split on Unicode whitespace, discarding
empty tokens. -/
def splitWhitespace (s : List Char) : List (List Char) :=
  splitWhitespaceAux [] s

/-- One step bound of `replaceAll`. The `fuel` argument only serves to make
the recursion structural; `replaceAll` always supplies enough fuel for the
scan to finish, so the `fuel = 0` branch is never taken on a non-empty
string. -/
def replaceAllFuel (pat rep : List Char) : Nat → List Char → List Char
  | _, [] => []
  | 0, s => s
  | fuel + 1, c :: rest =>
    if pat ≠ [] ∧ pat.isPrefixOf (c :: rest) then
      rep ++ replaceAllFuel pat rep fuel ((c :: rest).drop pat.length)
    else
      c :: replaceAllFuel pat rep fuel rest

/-- Rust's `str::replace` for a non-empty pattern: replace every
non-overlapping occurrence of `pat` by `rep`, scanning left to right. (All
call sites in the source use fixed non-empty patterns.) -/
def replaceAll (pat rep s : List Char) : List Char :=
  replaceAllFuel pat rep s.length s

/-- The `LOWERCASE_WORDS` table of `name.rs`: words expected to stay
lowercase. -/
def LOWERCASE_WORDS : List (List Char) :=
  ["and".data, "like".data, "the".data, "of".data, "or".data, "with".data]

/-- The `TITLE_CASE_REPLACEMENTS` table of `name.rs`. The source stores it
in a `HashMap` and applies the substitutions in the map's iteration order;
no key occurs as a substring of any other key or of any value, so the order
of application does not matter, and we fix the insertion order. -/
def TITLE_CASE_REPLACEMENTS : List (List Char × List Char) :=
  [("hodgkin".data, "Hodgkin".data),
   ("barr".data, "Barr".data),
   ("dorfman".data, "Dorfman".data),
   ("leydig".data, "Leydig".data),
   ("Iamp21".data, "iAMP21".data)]

/-- The character loop of `AsciiString::to_title_case`: uppercase a
character when the flag is set, lowercase it otherwise; the flag is set for
the first character and after every `/`. -/
def titleCaseCore : Bool → List Char → List Char
  | _, [] => []
  | up, c :: rest =>
    (if up then asciiToUpper c else asciiToLower c) :: titleCaseCore (c == '/') rest

/-- The replacement pass at the end of `AsciiString::to_title_case`. -/
def applyReplacements (s : List Char) : List Char :=
  TITLE_CASE_REPLACEMENTS.foldl (fun acc kv => replaceAll kv.1 kv.2 acc) s

/-- `AsciiString::to_title_case`. -/
def toTitleCase (s : List Char) : List Char :=
  applyReplacements (titleCaseCore true s)

/-- The `Case` enumeration of `name.rs`: a word tagged with its validated
casing. -/
inductive Case
  | lower (w : List Char)
  | title (w : List Char)
  | upper (w : List Char)
deriving DecidableEq, Repr

/-- The `IncorrectCaseError` record of `name.rs`. -/
structure IncorrectCaseError where
  found : List Char
  expected : List Char
  reason : List Char
deriving DecidableEq, Repr

/-- Reason string used when a word from the lowercase list is miscased. -/
def reasonLowercaseList : List Char :=
  "the word is in the lowercase list".data

/-- Reason string used when a word fails the title-case check. -/
def reasonTitleCase : List Char :=
  "the word is neither in the lowercase list nor is fully uppercase".data

/-- `validate_word_case` of `name.rs`. -/
def validateWordCase (input : List Char) : Except IncorrectCaseError Case :=
  let lowercased := input.map asciiToLower
  if LOWERCASE_WORDS.contains lowercased then
    if lowercased = input then
      .ok (.lower input)
    else
      .error ⟨input, lowercased, reasonLowercaseList⟩
  else
    let uppercased := input.map asciiToUpper
    if uppercased = input then
      .ok (.upper input)
    else
      let titleCased := toTitleCase input
      if titleCased = input then
        .ok (.title input)
      else
        .error ⟨input, titleCased, reasonTitleCase⟩

/-- The `ParseError` enumeration of `name.rs`. -/
inductive ParseError
  | nonAsciiWords (words : List (List Char))
  | incorrectlyCasedWords (errors : List IncorrectCaseError)
deriving DecidableEq, Repr

/-- The `Name` record of `name.rs`: the original string plus its cased
words. -/
structure Name where
  inner : List Char
  words : List Case
deriving DecidableEq, Repr

/-- Tokenization used by `Name::from_str`: drop every `,` and `;`, then
split on whitespace. -/
def nameTokens (input : List Char) : List (List Char) :=
  splitWhitespace (input.filter fun c => !(c == ',' || c == ';'))

/-- Projection of a word-case result onto its error, if any. -/
def caseErr (r : Except IncorrectCaseError Case) : Option IncorrectCaseError :=
  match r with
  | .error e => some e
  | .ok _ => none

/-- Projection of a word-case result onto its success value, if any. -/
def caseOk (r : Except IncorrectCaseError Case) : Option Case :=
  match r with
  | .error _ => none
  | .ok c => some c

/-- `Name::from_str` of `name.rs`: strip `,` and `;`, split on whitespace,
report every non-ASCII token if any exist, otherwise validate the case of
every token, reporting every miscased token if any exist; on success keep
the original input string and the cased words in order. The source's
`partition` calls preserve the relative order of each side, which `filter`
and `filterMap` reproduce. -/
def nameFromStr (input : List Char) : Except ParseError Name :=
  let tokens := nameTokens input
  let invalid := tokens.filter fun t => !isAsciiStr t
  if invalid.isEmpty then
    let results := tokens.map validateWordCase
    let errs := results.filterMap caseErr
    if errs.isEmpty then
      .ok ⟨input, results.filterMap caseOk⟩
    else
      .error (.incorrectlyCasedWords errs)
  else
    .error (.nonAsciiWords invalid)

/-- Capitalization of a single word: uppercase its first character. Used to
state the allow-list property of spec section 8 (`Capitalize(w)`). -/
def capitalizeWord : List Char → List Char
  | [] => []
  | c :: rest => asciiToUpper c :: rest

/-- The `Node` record of `crates/ontology/src/node.rs`: a name, a parent
name, and a short code. The `code` field of the source is a plain `String`
(not an `Option`). -/
structure Node where
  name : Name
  parent : Name
  code : List Char
deriving DecidableEq, Repr

/-- The `Error` enumeration of `crates/ontology/src/node/builder.rs`. -/
inductive BuilderError
  | missingField (field : List Char)
deriving DecidableEq, Repr

/-- The `Builder` record of `crates/ontology/src/node/builder.rs`: every
field starts out unset. -/
structure Builder where
  name : Option Name := none
  parent : Option Name := none
  code : Option (List Char) := none
deriving DecidableEq, Repr

/-- `Builder::try_build`: `name`, `parent` and `code` are all required;
the first missing one is reported as `MissingField`. -/
def tryBuild (b : Builder) : Except BuilderError Node :=
  match b.name with
  | none => .error (.missingField "name".data)
  | some name =>
    match b.parent with
    | none => .error (.missingField "parent".data)
    | some parent =>
      match b.code with
      | none => .error (.missingField "code".data)
      | some code => .ok ⟨name, parent, code⟩

/-- The directed graph of `init.rs`: an arena of nodes addressed by their
position, and edges as (source index, target index) pairs in insertion
order, always pointing from parent to child. -/
structure Graph where
  nodes : List Node
  edges : List (Nat × Nat)
deriving DecidableEq, Repr

/-- Structured failures of graph construction in `init.rs`; each
constructor corresponds to one `bail!`/`ok_or(anyhow!(..))` site (the
`nodeNotFound` sites are marked unreachable in the source). -/
inductive BuildError
  | duplicateNode (name : List Char)
  | nodeNotFound (name : List Char)
  | multipleRoots (first second : List Char)
  | missingParent (name : List Char)
  | noRootFound
deriving DecidableEq, Repr

/-- First-match lookup in an association list from names to indices,
embedding the `HashMap<String, NodeIndex>` of `init.rs` (the builder only
ever inserts fresh keys, so one binding per key exists). -/
def lookupIdx (m : List (List Char × Nat)) (k : List Char) : Option Nat :=
  match m with
  | [] => none
  | (k', v) :: rest => if k' = k then some v else lookupIdx rest k

/-- The first loop of `init.rs::main`: insert every node into the index
map keyed by its name string, failing fast with `DuplicateNode` when a name
is already present. `i` is the index the next node will receive. -/
def buildIndexes : List Node → List (List Char × Nat) → Nat →
    Except BuildError (List (List Char × Nat))
  | [], acc, _ => .ok acc
  | n :: rest, acc, i =>
    let nm := n.name.inner
    if (lookupIdx acc nm).isSome then
      .error (.duplicateNode nm)
    else
      buildIndexes rest (acc ++ [(nm, i)]) (i + 1)

/-- The second loop of `init.rs::main`: for each node in order, look up its
own index, then either record it as the root (failing with `MultipleRoots`
on a second empty-parent node) or resolve its parent (failing with
`MissingParent`) and append a parent-to-child edge. After the loop, a
missing root is `NoRootFound`. Returns the accumulated edges and the root
name. -/
def addEdges (indexes : List (List Char × Nat)) :
    List Node → Option (List Char) → List (Nat × Nat) →
    Except BuildError (List (Nat × Nat) × List Char)
  | [], none, _ => .error .noRootFound
  | [], some r, es => .ok (es, r)
  | n :: rest, root, es =>
    let name := n.name.inner
    match lookupIdx indexes name with
    | none => .error (.nodeNotFound name)
    | some nodeIdx =>
      let parent := n.parent.inner
      if parent.isEmpty then
        match root with
        | some r => .error (.multipleRoots r name)
        | none => addEdges indexes rest (some name) es
      else
        match lookupIdx indexes parent with
        | none => .error (.missingParent parent)
        | some parentIdx => addEdges indexes rest root (es ++ [(parentIdx, nodeIdx)])

/-- Graph construction, `init.rs::main` up to the call to
`Directory::scaffold_from_graph`: returns the built graph together with the
root's node index. The final lookup of the root name mirrors the source's
`indexes.get(&root).unwrap()`, whose failure the source comments as
impossible; it is mapped to the `nodeNotFound` constructor. -/
def buildGraph (nodes : List Node) : Except BuildError (Graph × Nat) :=
  match buildIndexes nodes [] 0 with
  | .error e => .error e
  | .ok indexes =>
    match addEdges indexes nodes none [] with
    | .error e => .error e
    | .ok (edges, rootName) =>
      match lookupIdx indexes rootName with
      | none => .error (.nodeNotFound rootName)
      | some rootIdx => .ok (⟨nodes, edges⟩, rootIdx)

/-- Outgoing neighbors of node `i`: targets of edges whose source is `i`.
petgraph iterates a node's adjacency list from the most recently inserted
edge backwards, hence the `reverse`. -/
def outNeighbors (g : Graph) (i : Nat) : List Nat :=
  ((g.edges.filter fun e => e.1 == i).map Prod.snd).reverse

/-- Incoming neighbors of node `i`: sources of edges whose target is `i`,
in petgraph's reverse-insertion iteration order. -/
def inNeighbors (g : Graph) (i : Nat) : List Nat :=
  ((g.edges.filter fun e => e.2 == i).map Prod.fst).reverse

/-- The name string of the node at index `i`. The source unwraps
`graph.node_weight(index)` at every use site, each marked as infallible; an
out-of-range index yields the empty name here. -/
def nodeName (g : Graph) (i : Nat) : List Char :=
  match g.nodes.get? i with
  | some n => n.name.inner
  | none => []

/-- Sequential discovery step of petgraph's `Bfs`: scan the neighbor list
in order, keeping those not yet discovered (each kept node is immediately
marked discovered, so duplicates within the list are kept once). -/
def newNodes (disc : List Nat) : List Nat → List Nat
  | [] => []
  | j :: rest =>
    if disc.contains j then newNodes disc rest
    else j :: newNodes (disc ++ [j]) rest

/-- The work loop of petgraph's `Bfs`: pop the queue front, emit it, and
enqueue its undiscovered outgoing neighbors. `fuel` makes the recursion
structural; `bfs` supplies one unit per possible pop (the start node plus
one per edge, since each pop corresponds to a distinct discovery and each
discovery after the start consumes a distinct edge), so the `fuel = 0`
branch is never taken. -/
def bfsAux (g : Graph) : Nat → List Nat → List Nat → List Nat
  | 0, _, _ => []
  | _ + 1, [], _ => []
  | fuel + 1, i :: rest, disc =>
    let fresh := newNodes disc (outNeighbors g i)
    i :: bfsAux g fuel (rest ++ fresh) (disc ++ fresh)

/-- Breadth-first order of node indices from `start`, as produced by
`Bfs::new(&graph, root)` driving the scaffold loop of `directory.rs`. -/
def bfs (g : Graph) (start : Nat) : List Nat :=
  bfsAux g (g.edges.length + 1) [start] [start]

/-- Outcomes of path resolution in `directory.rs` that abort the walk. The
source has no structured multiple-parents error: it uses
`assert!(neighbors.len() == 1, "there should only be one parent!")`, which
panics; `panicAssert` models that process abort, as distinct from the
`bail!`-style structured return modelled by `foundSecondRoot`. `outOfFuel`
models non-termination of the ancestor walk on a cyclic input, which the
source does not guard against. -/
inductive ResolveError
  | panicAssert (msg : List Char)
  | foundSecondRoot (name : List Char)
  | outOfFuel
deriving DecidableEq, Repr

/-- The panic message of the single-parent assertion in `directory.rs`. -/
def assertMsg : List Char :=
  "there should only be one parent!".data

/-- The inner `loop` of `Directory::scaffold_from_graph`: walk upward from
`cur`, pushing each ancestor's name onto the front of the accumulator. An
empty incoming set ends the walk at the root (or is a `bail!` if the name
differs from the root's); an incoming set with two or more elements fires
the assertion and panics. -/
def ancestorElems (g : Graph) (rootName : List Char) :
    Nat → Nat → List (List Char) → Except ResolveError (List (List Char))
  | 0, _, _ => .error .outOfFuel
  | fuel + 1, cur, acc =>
    match inNeighbors g cur with
    | [] =>
      if nodeName g cur ≠ rootName then
        .error (.foundSecondRoot (nodeName g cur))
      else
        .ok acc
    | [p] => ancestorElems g rootName fuel p (nodeName g p :: acc)
    | _ => .error (.panicAssert assertMsg)

/-- `clean_path_name` of `directory.rs`: remove every `,` and `;`. -/
def cleanPathName (s : List Char) : List Char :=
  s.filter fun c => !(c == ',' || c == ';')

/-- Splitting a path element into words at its spaces, dropping empty
words. -/
def splitSpaces (s : List Char) : List (List Char) :=
  (s.splitOn ' ').filter fun w => !w.isEmpty

/-- Hyphen-joining a word list. -/
def joinHyphen : List (List Char) → List Char
  | [] => []
  | [w] => w
  | w :: rest => w ++ '-' :: joinHyphen rest

/-- Modelled from the spec: the `convert_case` crate call
`.from_case(Case::Title).without_boundaries(&[Boundary::DigitUpper,
Boundary::DigitLower]).to_case(Case::Kebab)` of `directory.rs` is external
library code not present in the repository. Per the spec, the rendering
splits a title-case element at spaces only, lowercases each word, and joins
with hyphens, "treating digit characters adjacent to letters as
non-boundary" so that a token such as `KMT2A` stays one hyphen-free
segment. -/
def kebabElem (s : List Char) : List Char :=
  joinHyphen ((splitSpaces (cleanPathName s)).map (List.map asciiToLower))

/-- Path computation for one breadth-first visit of
`Directory::scaffold_from_graph`: the ancestor chain root-first, then the
node's own name with the fixed `.yml` extension, each element rendered into
a kebab-case segment. The ancestor walk gets one fuel unit more than the
number of nodes, enough for any acyclic chain of distinct nodes. -/
def nodePath (g : Graph) (rootName : List Char) (i : Nat) :
    Except ResolveError (List (List Char)) := do
  let anc ← ancestorElems g rootName (g.nodes.length + 1) i []
  let elems := anc ++ [nodeName g i ++ ".yml".data]
  .ok (elems.map kebabElem)

/-- Path computation for a list of visits, in order. -/
def resolveAll (g : Graph) (rootName : List Char) :
    List Nat → Except ResolveError (List (Nat × List (List Char)))
  | [] => .ok []
  | i :: rest => do
    let p ← nodePath g rootName i
    let others ← resolveAll g rootName rest
    .ok ((i, p) :: others)

/-- The path-resolution content of `Directory::scaffold_from_graph`:
breadth-first traversal from the root, and for each visited node the
rendered path segments of its file, in visit order. File-system writes are
external and not modelled. -/
def resolvePaths (g : Graph) (root : Nat) :
    Except ResolveError (List (Nat × List (List Char))) :=
  resolveAll g (nodeName g root) (bfs g root)

/-- Position-indexed association list from node names to arena indices,
starting at index `i`: the contents of the index map after the first loop
of `init.rs` has inserted a list of fresh-named nodes. -/
def indexList (i : Nat) : List Node → List (List Char × Nat)
  | [] => []
  | n :: rest => (n.name.inner, i) :: indexList (i + 1) rest

/-! Concrete data used by witnesses and counterexamples. All names below
are accepted verbatim by `nameFromStr` (single ASCII uppercase or
title-case words), so the node lists are ones the surrounding tool could
really produce from a TSV file. -/

/-- The empty name, as produced by `nameFromStr` on an empty parent
field. -/
def nameEmpty : Name := ⟨[], []⟩

/-- A one-word uppercase name `A`. -/
def nameA : Name := ⟨"A".data, [Case.upper "A".data]⟩

/-- A one-word uppercase name `B`. -/
def nameB : Name := ⟨"B".data, [Case.upper "B".data]⟩

/-- A one-word uppercase name `C`. -/
def nameC : Name := ⟨"C".data, [Case.upper "C".data]⟩

/-- Three rows: a root `A`, and two nodes `B` and `C` naming each other as
parent. Graph construction accepts this input even though `B` and `C` form
a directed cycle disconnected from the root. -/
def cycleNodes : List Node :=
  [⟨nameA, nameEmpty, "a".data⟩, ⟨nameB, nameC, "b".data⟩, ⟨nameC, nameB, "c".data⟩]

/-- The graph construction builds from `cycleNodes`. -/
def cycleGraph : Graph := ⟨cycleNodes, [(2, 1), (1, 2)]⟩

/-- Two rows: a root `A` and a child `B`. -/
def chainNodes : List Node :=
  [⟨nameA, nameEmpty, "a".data⟩, ⟨nameB, nameA, "b".data⟩]

/-- The graph construction builds from `chainNodes`. -/
def chainGraph : Graph := ⟨chainNodes, [(0, 1)]⟩

/-- A hand-made graph in which node `1` has two incoming edges, from `0`
and from `2`. The scaffold routine takes the graph as an argument, so its
behaviour on such a graph is well defined even though the builder never
produces one. -/
def twoParentGraph : Graph :=
  ⟨[⟨nameA, nameEmpty, "a".data⟩, ⟨nameB, nameA, "b".data⟩, ⟨nameC, nameEmpty, "c".data⟩],
   [(0, 1), (2, 1)]⟩

/-- One row whose parent `B` matches no node, and no row with an empty
parent. -/
def orphanNodes : List Node := [⟨nameA, nameB, "a".data⟩]

/-- Two rows naming each other as parent; no row has an empty parent, every
parent resolves, and all names are distinct. -/
def noRootNodes : List Node :=
  [⟨nameA, nameB, "a".data⟩, ⟨nameB, nameA, "b".data⟩]

/-! Helper lemmas. -/

/-- Converting a small code point to a character and back is the
identity. -/
theorem toNat_ofNat_lt {n : Nat} (h : n < 0xd800) : (Char.ofNat n).toNat = n := by
  rw [Char.ofNat, dif_pos (Or.inl h)]
  simp [Char.ofNatAux, Char.toNat, UInt32.toNat]

/-- ASCII lowercasing never introduces a hyphen. -/
theorem asciiToLower_ne_hyphen {c : Char} (h : c ≠ '-') : asciiToLower c ≠ '-' := by
  unfold asciiToLower
  split
  · next hc =>
    intro heq
    have h1 : 65 ≤ c.toNat := hc.1
    have h2 : c.toNat ≤ 90 := hc.2
    have h3 := congrArg Char.toNat heq
    rw [toNat_ofNat_lt (by omega)] at h3
    have h45 : ('-').toNat = 45 := rfl
    omega
  · exact h

/-- C5: `classify("Iamp21")` fails with an `IncorrectlyCasedWords` error
whose single finding names `iAMP21` as the expected form, while
`classify("iAMP21")` succeeds and tags the single word as `Title`. -/
theorem iamp21_title_case_exception :
    nameFromStr "Iamp21".data =
      .error (.incorrectlyCasedWords
        [⟨"Iamp21".data, "iAMP21".data, reasonTitleCase⟩]) ∧
    nameFromStr "iAMP21".data =
      .ok ⟨"iAMP21".data, [Case.title "iAMP21".data]⟩ := by
  constructor <;> decide

/-- C4 counterexample: with only `name` and `parent` set, `try_build` does
not succeed — it fails with `MissingField("code")`, because the built node
stores the short code as a required string. -/
theorem builder_without_code_fails :
    tryBuild ⟨some nameA, some nameEmpty, none⟩ =
      .error (.missingField "code".data) := by
  decide

/-- C4 amended: the node builder requires all three fields. With only
`name` and `parent` provided it fails with `MissingField("code")`, and when
all three are provided it succeeds, storing the code as a plain (always
present) string. -/
theorem builder_requires_code :
    (∀ name parent, tryBuild ⟨some name, some parent, none⟩ =
        .error (.missingField "code".data)) ∧
    (∀ name parent code, tryBuild ⟨some name, some parent, some code⟩ =
        .ok ⟨name, parent, code⟩) :=
  ⟨fun _ _ => rfl, fun _ _ _ => rfl⟩

/-- C7: every word of the lowercase allow-list classifies successfully with
the `Lower` tag, and its capitalized form fails with a single
`IncorrectlyCasedWords` finding naming the lowercase word as the expected
form. -/
theorem lowercase_allowlist_round_trip :
    ∀ w ∈ LOWERCASE_WORDS,
      nameFromStr w = .ok ⟨w, [Case.lower w]⟩ ∧
      nameFromStr (capitalizeWord w) =
        .error (.incorrectlyCasedWords
          [⟨capitalizeWord w, w, reasonLowercaseList⟩]) := by
  decide

/-- Witness for C7 at the allow-list word `and`. -/
theorem lowercase_allowlist_round_trip_witness :
    nameFromStr "and".data = .ok ⟨"and".data, [Case.lower "and".data]⟩ ∧
    nameFromStr (capitalizeWord "and".data) =
      .error (.incorrectlyCasedWords
        [⟨capitalizeWord "and".data, "and".data, reasonLowercaseList⟩]) :=
  lowercase_allowlist_round_trip "and".data (by decide)

/-- C2 counterexample: on a concrete graph in which node `1` has incoming
edges from both `0` and `2`, path resolution does not return a structured
multiple-parents error value — the source has no such error variant — but
aborts through the `assert!` panic `there should only be one parent!`,
modelled by the distinct `panicAssert` outcome. -/
theorem multiple_parents_is_panic_not_error :
    resolvePaths twoParentGraph 0 = .error (.panicAssert assertMsg) := by
  decide

/-- C2 amended: when the set of nodes with an edge into the current node
has more than one element, the ancestor walk halts immediately with the
`assert!` panic (it never silently picks one parent), rather than returning
a structured `MultipleParents` error value, which does not exist in the
code. -/
theorem multiple_parents_assertion :
    ∀ (g : Graph) (rootName : List Char) (fuel cur : Nat)
      (acc : List (List Char)) (p q : Nat) (rest : List Nat),
      inNeighbors g cur = p :: q :: rest →
      ancestorElems g rootName (fuel + 1) cur acc =
        .error (.panicAssert assertMsg) := by
  intro g rn fuel cur acc p q rest h
  simp [ancestorElems, h]

/-- Witness for C2 at the two-parent graph, walking up from node `1`. -/
theorem multiple_parents_assertion_witness :
    inNeighbors twoParentGraph 1 = [2, 0] ∧
    ancestorElems twoParentGraph (nodeName twoParentGraph 0) 4 1 [] =
      .error (.panicAssert assertMsg) :=
  ⟨by decide,
   multiple_parents_assertion twoParentGraph (nodeName twoParentGraph 0)
     3 1 [] 2 0 [] (by decide)⟩

/-- C6: whenever classification fails with `IncorrectlyCasedWords`, the
error holds the finding of every token that fails the word-case check, in
token order, never only the first; concretely, `foo, baR, and bAZ` produces
exactly three findings — for `foo`, `baR` and `bAZ` — and none for
`and`. -/
theorem incorrect_case_findings_exhaustive :
    (∀ (s : List Char) (errs : List IncorrectCaseError),
        nameFromStr s = .error (.incorrectlyCasedWords errs) →
        errs = ((nameTokens s).map validateWordCase).filterMap caseErr) ∧
    nameFromStr "foo, baR, and bAZ".data =
      .error (.incorrectlyCasedWords
        [⟨"foo".data, "Foo".data, reasonTitleCase⟩,
         ⟨"baR".data, "Bar".data, reasonTitleCase⟩,
         ⟨"bAZ".data, "Baz".data, reasonTitleCase⟩]) := by
  constructor
  · intro s errs h
    simp only [nameFromStr] at h
    split at h
    · split at h
      · exact absurd h (by simp)
      · injection h with h
        injection h with h
        exact h.symm
    · exact absurd h (by simp)
  · decide

/-- Witness for C6 at the concrete miscased input. -/
theorem incorrect_case_findings_exhaustive_witness :
    [(⟨"foo".data, "Foo".data, reasonTitleCase⟩ : IncorrectCaseError),
     ⟨"baR".data, "Bar".data, reasonTitleCase⟩,
     ⟨"bAZ".data, "Baz".data, reasonTitleCase⟩] =
      ((nameTokens "foo, baR, and bAZ".data).map validateWordCase).filterMap
        caseErr :=
  incorrect_case_findings_exhaustive.1 "foo, baR, and bAZ".data _ (by decide)

/-- C10: when at least one token is not pure ASCII, classification returns
`NonAsciiWords` carrying exactly the non-ASCII tokens in order, and no case
validation is reported; concretely `Bèar baR` reports only the non-ASCII
token `Bèar`, never the miscased ASCII token `baR`. -/
theorem nonascii_tokens_preempt_case_validation :
    (∀ s : List Char,
        (nameTokens s).filter (fun t => !isAsciiStr t) ≠ [] →
        nameFromStr s =
          .error (.nonAsciiWords
            ((nameTokens s).filter fun t => !isAsciiStr t))) ∧
    nameFromStr "Bèar baR".data = .error (.nonAsciiWords ["Bèar".data]) := by
  constructor
  · intro s h
    unfold nameFromStr
    rw [if_neg]
    simp [h]
  · decide

/-- Witness for C10 at the mixed non-ASCII and miscased input. -/
theorem nonascii_tokens_preempt_case_validation_witness :
    nameFromStr "Bèar baR".data =
      .error (.nonAsciiWords
        ((nameTokens "Bèar baR".data).filter fun t => !isAsciiStr t)) :=
  nonascii_tokens_preempt_case_validation.1 "Bèar baR".data (by decide)

/-- Splitting a string of whitespace characters yields no token. -/
theorem splitWhitespaceAux_nil_of_ws :
    ∀ s : List Char, (∀ c ∈ s, isRustWhitespace c) →
      splitWhitespaceAux [] s = [] := by
  intro s
  induction s with
  | nil => intro _; rfl
  | cons c rest ih =>
    intro h
    have hc : isRustWhitespace c = true := h c (by simp)
    simp only [splitWhitespaceAux, hc, if_true, List.isEmpty]
    exact ih fun x hx => h x (by simp [hx])

/-- C9: a string of whitespace and the stripped punctuation `,`/`;` only —
in particular the empty string — classifies successfully into a `Name`
whose cased-word sequence is empty and whose original string is the input
unchanged; this is what lets the root row's empty parent field parse. -/
theorem blank_string_parses_to_empty_name :
    ∀ s : List Char,
      (∀ c ∈ s, isRustWhitespace c ∨ c = ',' ∨ c = ';') →
      nameFromStr s = .ok ⟨s, []⟩ := by
  intro s h
  have htoks : nameTokens s = [] := by
    unfold nameTokens splitWhitespace
    apply splitWhitespaceAux_nil_of_ws
    intro c hc
    have hmem := List.mem_filter.mp hc
    rcases h c hmem.1 with hw | hcomma | hsemi
    · exact hw
    · subst hcomma; simp at hmem
    · subst hsemi; simp at hmem
  unfold nameFromStr
  rw [htoks]
  rfl

/-- Witness for C9 at the empty string and at a punctuation-blank
string. -/
theorem blank_string_parses_to_empty_name_witness :
    nameFromStr [] = .ok ⟨[], []⟩ ∧
    nameFromStr " ,; ".data = .ok ⟨" ,; ".data, []⟩ :=
  ⟨blank_string_parses_to_empty_name [] (by decide),
   blank_string_parses_to_empty_name " ,; ".data (by decide)⟩

/-- Every member of a word list occurs contiguously inside its
hyphen-join. -/
theorem mem_infix_joinHyphen :
    ∀ (l : List (List Char)) (w : List Char), w ∈ l → w <:+: joinHyphen l := by
  intro l
  induction l with
  | nil => intro w hw; simp at hw
  | cons t rest ih =>
    intro w hw
    rcases List.mem_cons.mp hw with heq | hmem
    · subst heq
      cases rest with
      | nil => exact List.infix_rfl
      | cons r rs => exact ⟨[], '-' :: joinHyphen (r :: rs), by simp [joinHyphen]⟩
    · have hne : rest ≠ [] := by
        intro hnil
        rw [hnil] at hmem
        simp at hmem
      obtain ⟨a, b, hab⟩ := ih w hmem
      refine ⟨t ++ '-' :: a, b, ?_⟩
      cases rest with
      | nil => exact absurd rfl hne
      | cons r rs =>
        simp only [joinHyphen, ← hab]
        simp

/-- ASCII lowercasing a hyphen-free word yields a hyphen-free word. -/
theorem map_asciiToLower_no_hyphen {w : List Char} (h : '-' ∉ w) :
    '-' ∉ w.map asciiToLower := by
  intro hmem
  obtain ⟨c, hc, hlc⟩ := List.mem_map.mp hmem
  exact asciiToLower_ne_hyphen (fun he => h (he ▸ hc)) hlc

/-- C8: a hyphen-free token of a path element — such as the gene-style
token `KMT2A` — renders into the kebab-cased segment as one contiguous,
hyphen-free unit (its ASCII-lowercased form); it is never split at a
letter-digit boundary. -/
theorem gene_tokens_render_unsplit :
    ∀ (s w : List Char),
      w ∈ splitSpaces (cleanPathName s) →
      '-' ∉ w →
      (w.map asciiToLower) <:+: kebabElem s ∧ '-' ∉ w.map asciiToLower := by
  intro s w hw hnh
  refine ⟨?_, map_asciiToLower_no_hyphen hnh⟩
  exact mem_infix_joinHyphen _ _ (List.mem_map_of_mem _ hw)

/-- Witness for C8: in the element `Acute KMT2A Leukemia`, the token
`KMT2A` renders as the single hyphen-free unit `kmt2a` inside the segment
`acute-kmt2a-leukemia`. -/
theorem gene_tokens_render_unsplit_witness :
    "KMT2A".data ∈ splitSpaces (cleanPathName "Acute KMT2A Leukemia".data) ∧
    (("KMT2A".data.map asciiToLower <:+:
        kebabElem "Acute KMT2A Leukemia".data) ∧
      '-' ∉ "KMT2A".data.map asciiToLower) :=
  ⟨by decide,
   gene_tokens_render_unsplit "Acute KMT2A Leukemia".data "KMT2A".data
     (by decide) (by decide)⟩

/-- Looking up in a concatenated association list scans the left part
first. -/
theorem lookupIdx_append :
    ∀ (a b : List (List Char × Nat)) (k : List Char),
      lookupIdx (a ++ b) k =
        match lookupIdx a k with
        | some v => some v
        | none => lookupIdx b k := by
  intro a
  induction a with
  | nil => intro b k; rfl
  | cons p rest ih =>
    intro b k
    by_cases hk : p.1 = k
    · simp [lookupIdx, hk]
    · simp only [List.cons_append, lookupIdx, if_neg hk]
      exact ih b k

/-- A successful edge pass that started without a root candidate found one
node with an empty parent, and the returned root name is that node's
name. -/
theorem addEdges_ok_root :
    ∀ (idx : List (List Char × Nat)) (rest : List Node)
      (root : Option (List Char)) (es es' : List (Nat × Nat)) (rn : List Char),
      addEdges idx rest root es = .ok (es', rn) →
      (∃ n ∈ rest, n.parent.inner = [] ∧ n.name.inner = rn) ∨ root = some rn := by
  intro idx rest
  induction rest with
  | nil =>
    intro root es es' rn h
    cases root with
    | none => exact absurd h (by simp [addEdges])
    | some r =>
      simp only [addEdges, Except.ok.injEq, Prod.mk.injEq] at h
      exact Or.inr (by rw [h.2])
  | cons n rest ih =>
    intro root es es' rn h
    cases hl : lookupIdx idx n.name.inner with
    | none => simp [addEdges, hl] at h
    | some ni =>
      simp only [addEdges, hl] at h
      by_cases hp : n.parent.inner.isEmpty = true
      · rw [if_pos hp] at h
        cases root with
        | some r => exact absurd h (by simp)
        | none =>
          rcases ih (some n.name.inner) es es' rn h with hex | hroot
          · obtain ⟨m, hm, hme, hmn⟩ := hex
            exact Or.inl ⟨m, List.mem_cons_of_mem n hm, hme, hmn⟩
          · injection hroot with hroot
            exact Or.inl ⟨n, List.mem_cons_self n rest,
              List.isEmpty_iff.mp hp, hroot⟩
      · rw [if_neg hp] at h
        cases hlp : lookupIdx idx n.parent.inner with
        | none => rw [hlp] at h; exact absurd h (by simp)
        | some pi =>
          rw [hlp] at h
          rcases ih root (es ++ [(pi, ni)]) es' rn h with hex | hroot
          · obtain ⟨m, hm, hme, hmn⟩ := hex
            exact Or.inl ⟨m, List.mem_cons_of_mem n hm, hme, hmn⟩
          · exact Or.inr hroot

/-- When no node of the list has an empty parent and every name and parent
lookup succeeds, the edge pass started without a root candidate runs to the
end and fails with `NoRootFound`. -/
theorem addEdges_noRootFound :
    ∀ (idx : List (List Char × Nat)) (rest : List Node) (es : List (Nat × Nat)),
      (∀ n ∈ rest, n.parent.inner ≠ []) →
      (∀ n ∈ rest, (lookupIdx idx n.name.inner).isSome) →
      (∀ n ∈ rest, (lookupIdx idx n.parent.inner).isSome) →
      addEdges idx rest none es = .error .noRootFound := by
  intro idx rest
  induction rest with
  | nil => intro es _ _ _; rfl
  | cons n rest ih =>
    intro es hnp hown hpar
    obtain ⟨ni, hni⟩ :=
      Option.isSome_iff_exists.mp (hown n (List.mem_cons_self n rest))
    obtain ⟨pi, hpi⟩ :=
      Option.isSome_iff_exists.mp (hpar n (List.mem_cons_self n rest))
    have hp : n.parent.inner.isEmpty = false := by
      rcases hempty : n.parent.inner.isEmpty with _ | _
      · rfl
      · exact absurd (List.isEmpty_iff.mp hempty)
          (hnp n (List.mem_cons_self n rest))
    simp only [addEdges, hni, hpi, hp, Bool.false_eq_true, if_false]
    exact ih (es ++ [(pi, ni)])
      (fun m hm => hnp m (List.mem_cons_of_mem n hm))
      (fun m hm => hown m (List.mem_cons_of_mem n hm))
      (fun m hm => hpar m (List.mem_cons_of_mem n hm))

/-- When all node names are distinct and none collides with the
accumulator, the index pass succeeds and appends one binding per node at
consecutive indices. -/
theorem buildIndexes_ok_of_fresh :
    ∀ (nodes : List Node) (acc : List (List Char × Nat)) (i : Nat),
      (nodes.map fun n => n.name.inner).Nodup →
      (∀ n ∈ nodes, lookupIdx acc n.name.inner = none) →
      buildIndexes nodes acc i = .ok (acc ++ indexList i nodes) := by
  intro nodes
  induction nodes with
  | nil => intro acc i _ _; simp [buildIndexes, indexList]
  | cons n rest ih =>
    intro acc i hnd hfresh
    have hacc : lookupIdx acc n.name.inner = none :=
      hfresh n (List.mem_cons_self n rest)
    have hhead : n.name.inner ∉ rest.map fun m => m.name.inner :=
      (List.nodup_cons.mp hnd).1
    rw [buildIndexes, hacc]
    simp only [Option.isSome_none, Bool.false_eq_true, if_false]
    rw [ih (acc ++ [(n.name.inner, i)]) (i + 1) (List.nodup_cons.mp hnd).2 ?_]
    · simp [indexList]
    · intro m hm
      rw [lookupIdx_append, hfresh m (List.mem_cons_of_mem n hm)]
      have hne : n.name.inner ≠ m.name.inner := by
        intro he
        exact hhead (he ▸ List.mem_map_of_mem (fun x => x.name.inner) hm)
      simp [lookupIdx, hne]

/-- Every name of the node list is found by a lookup in its index list. -/
theorem lookupIdx_indexList_isSome :
    ∀ (nodes : List Node) (i : Nat) (k : List Char),
      k ∈ (nodes.map fun n => n.name.inner) →
      (lookupIdx (indexList i nodes) k).isSome := by
  intro nodes
  induction nodes with
  | nil => intro i k hk; simp at hk
  | cons n rest ih =>
    intro i k hk
    by_cases he : n.name.inner = k
    · simp [indexList, lookupIdx, he]
    · rw [indexList, lookupIdx, if_neg he]
      rcases (by simpa using hk :
          k = n.name.inner ∨ ∃ a ∈ rest, a.name.inner = k) with h1 | ⟨a, ha, hae⟩
      · exact absurd h1.symm he
      · exact ih (i + 1) k (List.mem_map.mpr ⟨a, ha, hae⟩)

/-- C3 counterexample: the single row `A` with the unresolvable parent `B`
has no empty-parent row, yet graph construction fails with
`MissingParent("B")`, not with `NoRootFound`. -/
theorem no_root_can_fail_with_missing_parent :
    orphanNodes.all (fun n => !n.parent.inner.isEmpty) = true ∧
    buildGraph orphanNodes = .error (.missingParent "B".data) ∧
    BuildError.missingParent "B".data ≠ BuildError.noRootFound := by
  refine ⟨by decide, by decide, by decide⟩

/-- C3 amended: when no node has an empty parent name, graph construction
always fails; it fails specifically with `NoRootFound` when the earlier
checks pass, that is, when the names are distinct and every parent name
resolves to some node of the sequence (otherwise `DuplicateNode` or
`MissingParent` preempts it). -/
theorem build_without_root_fails (nodes : List Node)
    (hnp : ∀ n ∈ nodes, n.parent.inner ≠ []) :
    (∀ out, buildGraph nodes ≠ .ok out) ∧
    ((nodes.map fun n => n.name.inner).Nodup →
      (∀ n ∈ nodes, ∃ m ∈ nodes, m.name.inner = n.parent.inner) →
      buildGraph nodes = .error .noRootFound) := by
  constructor
  · intro out h
    rw [buildGraph] at h
    cases hbi : buildIndexes nodes [] 0 with
    | error e => simp [hbi] at h
    | ok idx =>
      simp only [hbi] at h
      cases ha : addEdges idx nodes none [] with
      | error e => simp [ha] at h
      | ok p =>
        rcases addEdges_ok_root idx nodes none [] p.1 p.2 (by rw [ha]) with
          hex | hroot
        · obtain ⟨m, hm, hme, _⟩ := hex
          exact hnp m hm hme
        · exact absurd hroot (by simp)
  · intro hnd hres
    have hbi : buildIndexes nodes [] 0 = .ok (indexList 0 nodes) := by
      have := buildIndexes_ok_of_fresh nodes [] 0 hnd (fun _ _ => rfl)
      simpa using this
    have ha : addEdges (indexList 0 nodes) nodes none [] =
        .error .noRootFound := by
      apply addEdges_noRootFound
      · exact hnp
      · intro n hn
        exact lookupIdx_indexList_isSome nodes 0 n.name.inner
          (List.mem_map_of_mem (fun m => m.name.inner) hn)
      · intro n hn
        obtain ⟨m, hm, hme⟩ := hres n hn
        exact lookupIdx_indexList_isSome nodes 0 n.parent.inner
          (hme ▸ List.mem_map_of_mem (fun x => x.name.inner) hm)
    rw [buildGraph]
    simp only [hbi, ha]

/-- Witness for C3 at the two-row parent cycle, whose parents all resolve
and whose names are distinct. -/
theorem build_without_root_fails_witness :
    buildGraph noRootNodes = .error .noRootFound :=
  (build_without_root_fails noRootNodes (by decide)).2 (by decide) (by decide)

/-- Nodes discovered by a neighbor scan are new: none of them is already
in the discovered list. -/
theorem newNodes_not_mem :
    ∀ (l disc : List Nat), ∀ x ∈ newNodes disc l, x ∉ disc := by
  intro l
  induction l with
  | nil => intro disc x hx; simp [newNodes] at hx
  | cons j rest ih =>
    intro disc x hx
    rw [newNodes] at hx
    by_cases hj : disc.contains j
    · rw [if_pos hj] at hx
      exact ih disc x hx
    · rw [if_neg hj] at hx
      rcases List.mem_cons.mp hx with he | hm
      · subst he
        intro hmem
        exact hj (by simpa using hmem)
      · intro hmem
        exact ih (disc ++ [j]) x hm (by simp [hmem])

/-- Nodes discovered by one neighbor scan are pairwise distinct. -/
theorem newNodes_nodup :
    ∀ (l disc : List Nat), (newNodes disc l).Nodup := by
  intro l
  induction l with
  | nil => intro disc; simp [newNodes]
  | cons j rest ih =>
    intro disc
    rw [newNodes]
    by_cases hj : disc.contains j
    · rw [if_pos hj]; exact ih disc
    · rw [if_neg hj]
      refine List.nodup_cons.mpr ⟨?_, ih (disc ++ [j])⟩
      intro hmem
      exact newNodes_not_mem rest (disc ++ [j]) j hmem (by simp)

/-- The breadth-first work loop emits no index twice, provided the queue
is duplicate-free and fully contained in the discovered list — the
invariant petgraph's `Bfs` maintains. Each emitted index moreover comes
from the queue or was undiscovered on entry. -/
theorem bfsAux_nodup :
    ∀ (g : Graph) (fuel : Nat) (queue disc : List Nat),
      queue.Nodup → (∀ j ∈ queue, j ∈ disc) →
      (bfsAux g fuel queue disc).Nodup ∧
        ∀ x ∈ bfsAux g fuel queue disc, x ∈ queue ∨ x ∉ disc := by
  intro g fuel
  induction fuel with
  | zero => intro queue disc _ _; exact ⟨List.nodup_nil, by simp [bfsAux]⟩
  | succ fuel ih =>
    intro queue disc hq hsub
    cases queue with
    | nil => exact ⟨List.nodup_nil, by simp [bfsAux]⟩
    | cons i rest =>
      simp only [bfsAux]
      have hfd : ∀ x ∈ newNodes disc (outNeighbors g i), x ∉ disc :=
        newNodes_not_mem (outNeighbors g i) disc
      have hq' : (rest ++ newNodes disc (outNeighbors g i)).Nodup := by
        refine List.Nodup.append (List.nodup_cons.mp hq).2
          (newNodes_nodup (outNeighbors g i) disc) ?_
        intro x hx hx'
        exact hfd x hx' (hsub x (List.mem_cons_of_mem i hx))
      have hsub' : ∀ j ∈ rest ++ newNodes disc (outNeighbors g i),
          j ∈ disc ++ newNodes disc (outNeighbors g i) := by
        intro j hj
        rcases List.mem_append.mp hj with hl | hr
        · exact List.mem_append.mpr
            (Or.inl (hsub j (List.mem_cons_of_mem i hl)))
        · exact List.mem_append.mpr (Or.inr hr)
      obtain ⟨hnd, hsrc⟩ := ih (rest ++ newNodes disc (outNeighbors g i))
        (disc ++ newNodes disc (outNeighbors g i)) hq' hsub'
      have hhead : i ∈ disc := hsub i (List.mem_cons_self i rest)
      constructor
      · refine List.nodup_cons.mpr ⟨?_, hnd⟩
        intro hmem
        rcases hsrc i hmem with hin | hnin
        · rcases List.mem_append.mp hin with h1 | h2
          · exact (List.nodup_cons.mp hq).1 h1
          · exact hfd i h2 hhead
        · exact hnin (List.mem_append.mpr (Or.inl hhead))
      · intro x hx
        rcases List.mem_cons.mp hx with he | hm
        · exact Or.inl (he ▸ List.mem_cons_self i rest)
        · rcases hsrc x hm with hin | hnin
          · rcases List.mem_append.mp hin with h1 | h2
            · exact Or.inl (List.mem_cons_of_mem i h1)
            · exact Or.inr (hfd x h2)
          · exact Or.inr fun hc => hnin (List.mem_append.mpr (Or.inl hc))

/-- The breadth-first visit order never contains an index twice. -/
theorem bfs_nodup (g : Graph) (start : Nat) : (bfs g start).Nodup :=
  (bfsAux_nodup g (g.edges.length + 1) [start] [start]
    (List.nodup_singleton start) (fun _ hj => hj)).1

/-- A successful index pass returns the accumulator extended with one
binding per node at consecutive indices. -/
theorem buildIndexes_ok_eq :
    ∀ (nodes : List Node) (acc : List (List Char × Nat)) (i : Nat)
      (m : List (List Char × Nat)),
      buildIndexes nodes acc i = .ok m → m = acc ++ indexList i nodes := by
  intro nodes
  induction nodes with
  | nil =>
    intro acc i m h
    simp only [buildIndexes, Except.ok.injEq] at h
    simp [indexList, ← h]
  | cons n rest ih =>
    intro acc i m h
    cases hl : (lookupIdx acc n.name.inner).isSome with
    | true => rw [buildIndexes, hl] at h; exact absurd h (by simp)
    | false =>
      rw [buildIndexes, hl] at h
      simp only [Bool.false_eq_true, if_false] at h
      rw [ih (acc ++ [(n.name.inner, i)]) (i + 1) m h]
      simp [indexList]

/-- A successful index pass implies that no inserted name was already in
the accumulator and that the node names are pairwise distinct. -/
theorem buildIndexes_ok_fresh :
    ∀ (nodes : List Node) (acc : List (List Char × Nat)) (i : Nat)
      (m : List (List Char × Nat)),
      buildIndexes nodes acc i = .ok m →
      (∀ n ∈ nodes, lookupIdx acc n.name.inner = none) ∧
        (nodes.map fun n => n.name.inner).Nodup := by
  intro nodes
  induction nodes with
  | nil => intro acc i m _; exact ⟨by simp, List.nodup_nil⟩
  | cons n rest ih =>
    intro acc i m h
    cases hli : lookupIdx acc n.name.inner with
    | some v =>
      rw [buildIndexes] at h
      rw [hli] at h
      exact absurd h (by simp)
    | none =>
      rw [buildIndexes] at h
      rw [hli] at h
      simp only [Option.isSome_none, Bool.false_eq_true, if_false] at h
      obtain ⟨hfresh, hnodup⟩ := ih (acc ++ [(n.name.inner, i)]) (i + 1) m h
      constructor
      · intro x hx
        rcases List.mem_cons.mp hx with he | hm
        · exact he ▸ hli
        · have hap := hfresh x hm
          rw [lookupIdx_append] at hap
          cases hacc : lookupIdx acc x.name.inner with
          | none => rfl
          | some w => rw [hacc] at hap; exact absurd hap (by simp)
      · refine List.nodup_cons.mpr ⟨?_, hnodup⟩
        intro hmem
        obtain ⟨x, hx, hxe⟩ := List.mem_map.mp hmem
        have hap := hfresh x hx
        rw [lookupIdx_append] at hap
        cases hacc : lookupIdx acc x.name.inner with
        | some w => rw [hacc] at hap; exact absurd hap (by simp)
        | none =>
          have hif : n.name.inner = x.name.inner := by simpa using hxe.symm
          rw [hacc] at hap
          simp [lookupIdx, hif] at hap

/-- A successful lookup in the index list of a node list names the node
stored at the returned position (shifted by the starting index). -/
theorem lookupIdx_indexList_some :
    ∀ (nodes : List Node) (i : Nat) (k : List Char) (v : Nat),
      lookupIdx (indexList i nodes) k = some v →
      ∃ (j : Nat) (nj : Node), nodes[j]? = some nj ∧
        nj.name.inner = k ∧ v = i + j := by
  intro nodes
  induction nodes with
  | nil => intro i k v h; exact absurd h (by simp [indexList, lookupIdx])
  | cons n rest ih =>
    intro i k v h
    rw [indexList, lookupIdx] at h
    by_cases he : n.name.inner = k
    · rw [if_pos he] at h
      injection h with h
      exact ⟨0, n, by simp, he, by omega⟩
    · rw [if_neg he] at h
      obtain ⟨j, nj, hget, hname, hv⟩ := ih (i + 1) k v h
      exact ⟨j + 1, nj, by simpa using hget, hname, by omega⟩

/-- With pairwise-distinct names, a name determines its position in the
node list. -/
theorem nodup_names_position_unique :
    ∀ (nodes : List Node),
      (nodes.map fun n => n.name.inner).Nodup →
      ∀ (j j' : Nat) (nj nj' : Node),
        nodes[j]? = some nj → nodes[j']? = some nj' →
        nj.name.inner = nj'.name.inner → j = j' := by
  intro nodes hnd j j' nj nj' hj hj' hname
  have h1 : (nodes.map fun n => n.name.inner)[j]? = some nj.name.inner := by
    rw [List.getElem?_map, hj]; rfl
  have h2 : (nodes.map fun n => n.name.inner)[j']? = some nj'.name.inner := by
    rw [List.getElem?_map, hj']; rfl
  have hlt : j < (nodes.map fun n => n.name.inner).length := by
    by_contra hge
    rw [List.getElem?_eq_none (by omega)] at h1
    exact absurd h1 (by simp)
  exact List.getElem?_inj hlt hnd (by rw [h1, h2, hname])

/-- C1 counterexample: the three accepted rows `A` (root), `B` (parent
`C`) and `C` (parent `B`) build successfully, yet the graph contains the
directed cycle `1 → 2 → 1`, and breadth-first traversal from the root
visits only the root — nodes `1` and `2` are unreachable, so the graph is
not a tree rooted at the empty-parent node and BFS does not visit each
node of the graph. -/
theorem accepted_graph_with_cycle :
    buildGraph cycleNodes = .ok (cycleGraph, 0) ∧
    (1, 2) ∈ cycleGraph.edges ∧ (2, 1) ∈ cycleGraph.edges ∧
    cycleGraph.nodes.length = 3 ∧
    bfs cycleGraph 0 = [0] ∧ 1 ∉ bfs cycleGraph 0 := by
  refine ⟨by decide, by decide, by decide, by decide, by decide, by decide⟩

/-- A successful edge pass consumed exactly one empty-parent node when it
started without a root candidate, and none when a root candidate was
already known. -/
theorem addEdges_ok_count :
    ∀ (idx : List (List Char × Nat)) (rest : List Node)
      (root : Option (List Char)) (es : List (Nat × Nat))
      (out : List (Nat × Nat) × List Char),
      addEdges idx rest root es = .ok out →
      (rest.filter fun n => n.parent.inner.isEmpty).length =
        if root.isSome then 0 else 1 := by
  intro idx rest
  induction rest with
  | nil =>
    intro root es out h
    cases root with
    | none => exact absurd h (by simp [addEdges])
    | some r => simp
  | cons n rest ih =>
    intro root es out h
    cases hl : lookupIdx idx n.name.inner with
    | none => simp [addEdges, hl] at h
    | some ni =>
      simp only [addEdges, hl] at h
      by_cases hp : n.parent.inner.isEmpty = true
      · rw [if_pos hp] at h
        cases root with
        | some r => exact absurd h (by simp)
        | none =>
          have hc := ih (some n.name.inner) es out h
          simp only [Option.isSome_some, if_true] at hc
          simp [List.filter_cons, hp, hc]
      · rw [if_neg hp] at h
        cases hlp : lookupIdx idx n.parent.inner with
        | none => rw [hlp] at h; exact absurd h (by simp)
        | some pi =>
          rw [hlp] at h
          have hc := ih root (es ++ [(pi, ni)]) out h
          simpa [List.filter_cons, hp] using hc

/-- C1 amended: a graph accepted by the builder keeps the input nodes, has
exactly one empty-parent node, and the returned root index addresses an
empty-parent node; breadth-first path resolution visits no node twice.
However, the graph can contain directed cycles among nodes unreachable
from the root, so the traversal need not visit every node of the graph. -/
theorem accepted_graph_structure (nodes : List Node) (g : Graph) (r : Nat)
    (h : buildGraph nodes = .ok (g, r)) :
    g.nodes = nodes ∧
    (g.nodes.filter fun n => n.parent.inner.isEmpty).length = 1 ∧
    (∃ nr, g.nodes[r]? = some nr ∧ nr.parent.inner = []) ∧
    (bfs g r).Nodup := by
  rw [buildGraph] at h
  cases hbi : buildIndexes nodes [] 0 with
  | error e => simp [hbi] at h
  | ok idx =>
    simp only [hbi] at h
    cases ha : addEdges idx nodes none [] with
    | error e => simp [ha] at h
    | ok p =>
      obtain ⟨es, rn⟩ := p
      simp only [ha] at h
      cases hlr : lookupIdx idx rn with
      | none => simp [hlr] at h
      | some ri =>
        simp only [hlr] at h
        injection h with h'
        rw [Prod.mk.injEq] at h'
        obtain ⟨hg, hr⟩ := h'
        have hidx : idx = indexList 0 nodes := by
          simpa using buildIndexes_ok_eq nodes [] 0 idx hbi
        have hnd : (nodes.map fun n => n.name.inner).Nodup :=
          (buildIndexes_ok_fresh nodes [] 0 idx hbi).2
        have hgn : g.nodes = nodes := by rw [← hg]
        refine ⟨hgn, ?_, ?_, bfs_nodup g r⟩
        · rw [hgn]
          have hc := addEdges_ok_count idx nodes none [] (es, rn) ha
          simpa using hc
        · rcases addEdges_ok_root idx nodes none [] es rn ha with hex | hroot
          · obtain ⟨m, hm, hme, hmn⟩ := hex
            rw [hidx] at hlr
            obtain ⟨j, nj, hj, hjn, hv⟩ :=
              lookupIdx_indexList_some nodes 0 rn ri hlr
            obtain ⟨jm, hjm⟩ := List.getElem?_of_mem hm
            have hje : jm = j :=
              nodup_names_position_unique nodes hnd jm j m nj hjm hj
                (by rw [hmn, hjn])
            rw [hje, hj] at hjm
            injection hjm with hjm
            refine ⟨nj, ?_, by rw [hjm]; exact hme⟩
            rw [hgn, ← hr, hv]
            simpa using hj
          · exact absurd hroot (by simp)

/-- Witness for C1 at the two-row chain `A` (root) with child `B`. -/
theorem accepted_graph_structure_witness :
    chainGraph.nodes = chainNodes ∧
    (chainGraph.nodes.filter fun n => n.parent.inner.isEmpty).length = 1 ∧
    (∃ nr, chainGraph.nodes[0]? = some nr ∧ nr.parent.inner = []) ∧
    (bfs chainGraph 0).Nodup :=
  accepted_graph_structure chainNodes chainGraph 0 (by decide)

end ECC
